import Mathlib

/-!
Shallow embedding of the `query_pipeline_memory` notebook and the attached
compose file, together with a model (built from the specification) of the
memory-buffer and query-pipeline machinery that the notebook invokes from
the library.  Theorems at the end settle the specification's claims.
-/

set_option maxHeartbeats 1000000

namespace QPM

/-- A conversational message: role tag plus content text
(`llama_index.core.llms.ChatMessage` as used by the notebook). -/
structure ChatMessage where
  role : String
  content : String
deriving DecidableEq, Repr

/-- Opaque LLM collaborator: an ordered message list in, one message out
(spec §6, "LLM collaborator ... returns a single (role, content) message"). -/
structure LLM where
  chat : List ChatMessage → ChatMessage

/-- A retrieved node; `get_content(metadata_mode="llm")` is modelled as the
stored content text. -/
structure NodeWithScore where
  content : String
deriving DecidableEq, Repr

/-- The notebook's `DEFAULT_CONTEXT_PROMPT` template. -/
def DEFAULT_CONTEXT_PROMPT : String :=
  "Here is some context that may be relevant:\n-----\n{node_context}\n-----\nPlease write a response to the following question, using the above context:\n{query_str}\n"

/-- Python `template.format(node_context=..., query_str=...)` on the two
placeholders used by the notebook. -/
def formatContextPrompt (template node_context query_str : String) : String :=
  (template.replace "{node_context}" node_context).replace "{query_str}" query_str

/-- The `node_context` accumulation loop of `_prepare_context`:
`for idx, node in enumerate(nodes): node_context += f"Context Chunk {idx}:\n{node_text}\n\n"`. -/
def buildNodeContext : Nat → List NodeWithScore → String
  | _, [] => ""
  | idx, n :: rest =>
      "Context Chunk " ++ toString idx ++ ":\n" ++ n.content ++ "\n\n"
        ++ buildNodeContext (idx + 1) rest

/-- The notebook's `ResponseWithChatHistory` component: an explicit `llm`
field (required at construction), an optional system prompt, and a context
prompt defaulting to `DEFAULT_CONTEXT_PROMPT`. -/
structure ResponseWithChatHistory where
  llm : LLM
  system_prompt : Option String := none
  context_prompt : String := DEFAULT_CONTEXT_PROMPT

/-- A store of Python list objects holding chat histories; a reference is an
index.  Python's aliasing of mutable lists is made explicit this way:
`list.append` writes through the reference, rebinding a local name does not. -/
def ListStore := List (List ChatMessage)

/-- `ResponseWithChatHistory._prepare_context`.  The caller's
`chat_history` list is passed by reference (`chRef` into `store`):
`chat_history.append(user_message)` mutates the referenced list in place,
while `chat_history = [system] + chat_history` only rebinds the local name,
so the system message reaches the returned list but not the store. -/
def prepare_context (self : ResponseWithChatHistory) (store : List (List ChatMessage))
    (chRef : Nat) (nodes : List NodeWithScore) (query_str : String) :
    List (List ChatMessage) × List ChatMessage :=
  let node_context := buildNodeContext 0 nodes
  let formatted_context :=
    formatContextPrompt self.context_prompt node_context query_str
  let user_message : ChatMessage := ⟨"user", formatted_context⟩
  let current := store.getD chRef []
  let store1 := store.set chRef (current ++ [user_message])
  let result :=
    match self.system_prompt with
    | some sp => ChatMessage.mk "system" sp :: (current ++ [user_message])
    | none => current ++ [user_message]
  (store1, result)

/-- `ResponseWithChatHistory._run_component`.  In the notebook the line
`response = llm.chat(prepared_context)` refers to the module-global `llm`
defined in the pipeline-construction cell, not to `self.llm`; the embedding
therefore takes that global as the explicit argument `globalLlm` and invokes
it, exactly as the source does. -/
def run_component (globalLlm : LLM) (self : ResponseWithChatHistory)
    (store : List (List ChatMessage)) (chRef : Nat)
    (nodes : List NodeWithScore) (query_str : String) :
    List (List ChatMessage) × ChatMessage :=
  let p := prepare_context self store chRef nodes query_str
  let response := globalLlm.chat p.2
  (p.1, response)

/-- Tail of the notebook's blank-line cleanup loop: `prev` is
`lines[idx - 1]` from the original list; a line is skipped exactly when both
it and its original predecessor strip to empty. -/
def fixed_lines_aux (prev : String) : List String → List String
  | [] => []
  | cur :: rest =>
      if cur.trim = "" ∧ prev.trim = "" then fixed_lines_aux cur rest
      else cur :: fixed_lines_aux cur rest

/-- The notebook's cleanup loop: `fixed_lines = [lines[0]]` followed by the
loop over `range(1, len(lines))`. -/
def fixed_lines : List String → List String
  | [] => []
  | l0 :: rest => l0 :: fixed_lines_aux l0 rest

/-! ### Memory buffer (spec §4.5)

Modelled from the spec: the `ChatMemoryBuffer` implementation invoked by the
notebook (`from_defaults`, `put`, `get`) is library code not present under
`src/`; the model follows spec §4.5: append to the tail, then evict from the
head while the total size (by an injected sizing function) exceeds the budget
and more than one entry remains. -/

/-- Total size of a buffer under an injected sizing function. -/
def totalSize (size : ChatMessage → Nat) (l : List ChatMessage) : Nat :=
  (l.map size).sum

/-- Modelled from the spec: head eviction loop — "evicts from the head until
under budget or exactly one entry remains". -/
def evictHead (size : ChatMessage → Nat) (B : Nat) : List ChatMessage → List ChatMessage
  | [] => []
  | [x] => [x]
  | x :: y :: rest =>
      if totalSize size (x :: y :: rest) > B then evictHead size B (y :: rest)
      else x :: y :: rest

/-- Modelled from the spec: `append(entry)` — "adds entry to the tail; if
total size ... exceeds the configured budget, evicts from the head". -/
def memoryPut (size : ChatMessage → Nat) (B : Nat)
    (mem : List ChatMessage) (m : ChatMessage) : List ChatMessage :=
  evictHead size B (mem ++ [m])

/-- A pipeline run's result as consumed by the chat loop:
`response.message` is the assistant message. -/
structure ChatResponse where
  message : ChatMessage

/-- The notebook's
`chat_history_str = "\n".join([str(x) for x in chat_history])`; `str` on a
chat message renders "role: content". -/
def chatHistoryStr (mem : List ChatMessage) : String :=
  String.intercalate "\n" (mem.map (fun x => x.role ++ ": " ++ x.content))

/-- One iteration of the notebook's chat loop: read the memory snapshot,
build `chat_history_str`, run the pipeline, and only after a successful run
append first the user message and then the assistant response.  The pair
returned is (run outcome, memory afterwards); a raised error propagates and
leaves the memory untouched
(`pipeline_memory.get` / `pipeline.run` / `pipeline_memory.put`). -/
def chatTurn (size : ChatMessage → Nat) (B : Nat)
    (run : String → List ChatMessage → String → Except String ChatResponse)
    (mem : List ChatMessage) (msg : String) :
    Except String ChatResponse × List ChatMessage :=
  let chat_history := mem
  let chat_history_str := chatHistoryStr chat_history
  match run msg chat_history chat_history_str with
  | .error e => (.error e, mem)
  | .ok response =>
      let user_msg : ChatMessage := ⟨"user", msg⟩
      let mem1 := memoryPut size B mem user_msg
      let mem2 := memoryPut size B mem1 response.message
      (.ok response, mem2)

/-! ### Pipeline graph, validator and executor (spec §§4.1–4.4)

Modelled from the spec: `QueryPipeline.add_link`, graph validation and the
executor are library code not present under `src/` (the notebook only calls
them); the model follows spec §4.2 (link-time errors), §4.3 (cycle detection
then input-coverage check, topological order with ties broken by
registration order) and §4.4 (topological run threading values along
links). -/

/-- Error kinds of spec §7 that the modelled core can raise. -/
inductive PipelineError where
  | duplicateNameError (name : String)
  | unknownUnitError (name : String)
  | duplicateDestinationError (dst : String) (key : String)
  | cycleError (remaining : List String)
  | unsatisfiedInputError (unit : String) (key : String)
  | missingInputError (unit : String) (key : String)
deriving DecidableEq, Repr

/-- A directed edge with keyed endpoints (spec §3, "Link"). -/
structure Link where
  src : String
  src_key : String
  dest : String
  dest_key : String
deriving DecidableEq, Repr

/-- A registered processing unit: unique name and required input keys
(spec §3, "Unit"; behaviors are supplied separately to the executor). -/
structure UnitDecl where
  name : String
  required : List String
deriving DecidableEq, Repr

/-- Registry plus link table (spec §3, "Graph").  `units` is in registration
order. -/
structure PipelineGraph where
  units : List UnitDecl
  links : List Link
deriving DecidableEq, Repr

/-- The registered unit names, in registration order. -/
def moduleNames (g : PipelineGraph) : List String :=
  g.units.map UnitDecl.name

/-- Modelled from the spec: `add_link(src, src_key, dst, dst_key)` —
`UnknownUnitError` if either unit name is unregistered,
`DuplicateDestinationError` if `(dst, dst_key)` already has a producer,
otherwise the link is recorded. -/
def add_link (g : PipelineGraph) (src src_key dst dst_key : String) :
    Except PipelineError PipelineGraph :=
  if src ∈ moduleNames g then
    if dst ∈ moduleNames g then
      if g.links.any (fun l => l.dest == dst && l.dest_key == dst_key) then
        .error (.duplicateDestinationError dst dst_key)
      else
        .ok { g with links := g.links ++ [⟨src, src_key, dst, dst_key⟩] }
    else .error (.unknownUnitError dst)
  else .error (.unknownUnitError src)

/-- A unit is ready when every link into it has its producer already
ordered. -/
def ready (links : List Link) (ordered : List String) (u : String) : Bool :=
  links.all (fun l => !(l.dest == u) || ordered.contains l.src)

/-- Modelled from the spec: Kahn-style ordering loop.  `ordered` is the
reversed prefix already emitted; at each step the first ready unit in
registration order is emitted (ties broken by registration order); if no
unit is ready the residual units are reported in a `CycleError`. -/
def topoGo (links : List Link) : Nat → List String → List String →
    Except PipelineError (List String)
  | _, ordered, [] => .ok ordered.reverse
  | 0, _, r :: rs => .error (.cycleError (r :: rs))
  | fuel + 1, ordered, r :: rs =>
      match (r :: rs).find? (ready links ordered) with
      | none => .error (.cycleError (r :: rs))
      | some u => topoGo links fuel (u :: ordered) ((r :: rs).erase u)

/-- Modelled from the spec: topological ordering of the registered units. -/
def topoSort (modules : List String) (links : List Link) :
    Except PipelineError (List String) :=
  topoGo links modules.length [] modules

/-- A required key of a unit is covered when an incoming link produces it or
an initial input supplies it (spec §4.3(b)). -/
def coveredB (links : List Link) (inputs : List (String × String))
    (uname key : String) : Bool :=
  links.any (fun l => l.dest == uname && l.dest_key == key)
    || inputs.contains (uname, key)

/-- First (unit, required key) pair not covered by a link or initial input,
scanning units in registration order. -/
def findMissing (links : List Link) (inputs : List (String × String)) :
    List UnitDecl → Option (String × String)
  | [] => none
  | u :: rest =>
      match u.required.find? (fun k => !(coveredB links inputs u.name k)) with
      | some k => some (u.name, k)
      | none => findMissing links inputs rest

/-- Modelled from the spec: `validate(graph, initial_inputs)` — cycle
detection first, then the input-coverage check, returning the topological
ordering on success (spec §4.3). -/
def validate (g : PipelineGraph) (inputs : List (String × String)) :
    Except PipelineError (List String) :=
  match topoSort (moduleNames g) g.links with
  | .error e => .error e
  | .ok ord =>
      match findMissing g.links inputs g.units with
      | some p => .error (.unsatisfiedInputError p.1 p.2)
      | none => .ok ord

/-- An edge of the unit-dependency graph derived from the links. -/
def hasEdge (links : List Link) (a b : String) : Prop :=
  ∃ l ∈ links, l.src = a ∧ l.dest = b

/-- A cycle of any length ≥ 1 (including a self-loop): some unit reaches
itself through one or more links. -/
def hasCycle (g : PipelineGraph) : Prop :=
  ∃ u, Relation.TransGen (hasEdge g.links) u u

/-- Structural sanity of a graph: distinct unit names, link endpoints
registered (spec §3 invariants, enforced by registration and `add_link`). -/
def wellFormed (g : PipelineGraph) : Prop :=
  (moduleNames g).Nodup ∧
    ∀ l ∈ g.links, l.src ∈ moduleNames g ∧ l.dest ∈ moduleNames g

/-- `ord` respects every link: the source unit strictly precedes the
destination unit. -/
def linksRespect (links : List Link) (ord : List String) : Prop :=
  ∀ l ∈ links, ord.indexOf l.src < ord.indexOf l.dest

/-- The link table forms a DAG: some listing of the units respects every
link. -/
def isDAG (g : PipelineGraph) : Prop :=
  ∃ T : List String, T.Perm (moduleNames g) ∧ linksRespect g.links T

/-- Correctness skeleton of an emitted ordering: every element's
link-producers lie in `seen` (the elements already emitted before it). -/
def topoOk (links : List Link) : List String → List String → Prop
  | _, [] => True
  | seen, u :: rest =>
      (∀ l ∈ links, l.dest = u → l.src ∈ seen) ∧ topoOk links (u :: seen) rest

/-- Input values for one unit, read out of the execution context. -/
def gatherInputs (ctx : List ((String × String) × String)) (uname : String) :
    List (String × String) :=
  ctx.filterMap (fun e => if e.1.1 == uname then some (e.1.2, e.2) else none)

/-- Required keys of a named unit. -/
def requiredOf (units : List UnitDecl) (uname : String) : List String :=
  match units.find? (fun d => d.name == uname) with
  | some d => d.required
  | none => []

/-- Modelled from the spec: the executor's main loop (spec §4.4) — for each
unit in topological order, gather its resolved inputs, fail with
`MissingInputError` on a missing required input, otherwise invoke the
behavior, store each output under `(unit, key)` and propagate it along every
link leaving that pair. -/
def runUnits (behaviors : String → List (String × String) → List (String × String))
    (links : List Link) (units : List UnitDecl) :
    List String → List ((String × String) × String) →
    Except PipelineError (List ((String × String) × String))
  | [], ctx => .ok ctx
  | u :: rest, ctx =>
      let inputs := gatherInputs ctx u
      match (requiredOf units u).find?
          (fun k => !(inputs.any (fun kv => kv.1 == k))) with
      | some k => .error (.missingInputError u k)
      | none =>
          let outs := behaviors u inputs
          let ctx1 := ctx ++ outs.map (fun kv => ((u, kv.1), kv.2))
            ++ links.filterMap (fun l =>
                if l.src == u then
                  (outs.find? (fun kv => kv.1 == l.src_key)).map
                    (fun kv => ((l.dest, l.dest_key), kv.2))
                else none)
          runUnits behaviors links units rest ctx1

/-- Modelled from the spec: `run(graph, initial_inputs)` — validate, then
execute in the returned topological order (spec §4.4). -/
def run (g : PipelineGraph)
    (behaviors : String → List (String × String) → List (String × String))
    (inputs : List ((String × String) × String)) :
    Except PipelineError (List ((String × String) × String)) :=
  match validate g (inputs.map Prod.fst) with
  | .error e => .error e
  | .ok ord => runUnits behaviors g.links g.units ord inputs

/-! ### Deployment descriptor (the compose file) -/

/-- One service entry of the compose file. -/
structure ServiceEntry where
  name : String
  image : String
  environment : List String
  ports : List String
  healthcheck_test : List String
  healthcheck_interval : String
  healthcheck_retries : Nat
deriving DecidableEq, Repr

/-- The compose file's service table, verbatim. -/
def composeServices : List ServiceEntry :=
  [{ name := "elasticsearch"
     image := "docker.elastic.co/elasticsearch/elasticsearch:8.13.2"
     environment :=
       ["discovery.type=single-node",
        "xpack.license.self_generated.type=trial",
        "xpack.security.enabled=false"]
     ports := ["9200:9200"]
     healthcheck_test :=
       ["CMD-SHELL",
        "curl --silent --fail http://localhost:9200/_cluster/health || exit 1"]
     healthcheck_interval := "10s"
     healthcheck_retries := 60 }]

/-- Character-list prefix test. -/
def isPrefList : List Char → List Char → Bool
  | [], _ => true
  | _ :: _, [] => false
  | a :: as, b :: bs => a == b && isPrefList as bs

/-- Character-list infix test. -/
def hasInfList (pat : List Char) : List Char → Bool
  | [] => pat.isEmpty
  | s :: rest => isPrefList pat (s :: rest) || hasInfList pat rest

/-- Substring occurrence test on strings. -/
def strContains (s pat : String) : Bool :=
  hasInfList pat.toList s.toList

/-! ### Concrete instances evaluated by the theorems below -/

/-- An LLM standing for the notebook's module-global `llm` object, with a
recognizable constant answer. -/
def globalLLMDemo : LLM := ⟨fun _ => ⟨"assistant", "answer-from-global-llm"⟩⟩

/-- A different LLM injected into a component at construction. -/
def injectedLLMDemo : LLM := ⟨fun _ => ⟨"assistant", "answer-from-injected-llm"⟩⟩

/-- A `ResponseWithChatHistory` built, as the notebook does, by passing an
`llm` at construction — here deliberately distinct from the global one. -/
def demoComponent : ResponseWithChatHistory := { llm := injectedLLMDemo }

/-- A component with a configured system prompt. -/
def sysComponent : ResponseWithChatHistory :=
  { llm := injectedLLMDemo, system_prompt := some "You are a Q&A system." }

/-- Unit sizing function for memory-buffer witnesses. -/
def unitSize : ChatMessage → Nat := fun _ => 1

/-- A pipeline run that always raises. -/
def failingRun : String → List ChatMessage → String → Except String ChatResponse :=
  fun _ _ _ => .error "rate limit"

/-- A pipeline run that always succeeds with a fixed assistant message. -/
def okRun : String → List ChatMessage → String → Except String ChatResponse :=
  fun _ _ _ => .ok ⟨⟨"assistant", "hi there"⟩⟩

/-- A three-unit graph with one link into `C`, for exercising `add_link`. -/
def linkDemoGraph : PipelineGraph :=
  { units := [⟨"A", []⟩, ⟨"B", []⟩, ⟨"C", []⟩]
    links := [⟨"A", "output", "C", "k1"⟩] }

/-- A two-unit linear graph, for exercising `validate`. -/
def lineGraph : PipelineGraph :=
  { units := [⟨"input", []⟩, ⟨"llm", ["prompt"]⟩]
    links := [⟨"input", "query", "llm", "prompt"⟩] }

/-- A two-unit graph whose links form a cycle. -/
def cycleGraph : PipelineGraph :=
  { units := [⟨"A", []⟩, ⟨"B", []⟩]
    links := [⟨"A", "o", "B", "i"⟩, ⟨"B", "o", "A", "i"⟩] }

/-- A single-unit graph with no inputs, for exercising `run`. -/
def soloGraph : PipelineGraph := { units := [⟨"A", []⟩], links := [] }

/-- Behaviors for `soloGraph`: unit `A` emits one output. -/
def soloBehaviors : String → List (String × String) → List (String × String) :=
  fun _ _ => [("out", "v")]

/-! ## Theorems -/

/-- A nonempty list has an element minimizing a numeric measure. -/
theorem list_exists_min_image {α : Type} (f : α → Nat) :
    ∀ l : List α, l ≠ [] → ∃ a ∈ l, ∀ b ∈ l, f a ≤ f b := by
  intro l
  induction l with
  | nil => intro hne; exact absurd rfl hne
  | cons x xs ih =>
    intro _
    cases xs with
    | nil => exact ⟨x, by simp, by simp⟩
    | cons y ys =>
      obtain ⟨a, ha, hmin⟩ := ih (by simp)
      by_cases hx : f x ≤ f a
      · refine ⟨x, by simp, ?_⟩
        intro b hb
        rcases List.mem_cons.mp hb with rfl | hb
        · exact le_refl _
        · exact le_trans hx (hmin b hb)
      · refine ⟨a, List.mem_cons_of_mem _ ha, ?_⟩
        intro b hb
        rcases List.mem_cons.mp hb with rfl | hb
        · exact le_of_lt (lt_of_not_le hx)
        · exact hmin b hb

/-- If some element of a list satisfies the predicate, `find?` succeeds. -/
theorem list_find?_isSome_of_mem {α : Type} (p : α → Bool) :
    ∀ (l : List α) (a : α), a ∈ l → p a = true → ∃ w, l.find? p = some w := by
  intro l
  induction l with
  | nil => intro a ha; simp at ha
  | cons x xs ih =>
    intro a ha hpa
    by_cases hx : p x = true
    · exact ⟨x, by simp [List.find?, hx]⟩
    · rcases List.mem_cons.mp ha with rfl | ha
      · exact absurd hpa hx
      · obtain ⟨w, hw⟩ := ih a ha hpa
        have hxf : p x = false := by
          cases hpx : p x with
          | false => rfl
          | true => exact absurd hpx hx
        exact ⟨w, by simp [List.find?, hxf, hw]⟩

/-- Writing a list slot and reading it back yields the written value. -/
theorem list_getD_set_self {α : Type} :
    ∀ (l : List α) (i : Nat) (v d : α), i < l.length →
      (l.set i v).getD i d = v := by
  intro l
  induction l with
  | nil => intro i v d h; simp at h
  | cons x xs ih =>
    intro i v d h
    cases i with
    | zero => rfl
    | succ n =>
      have : n < xs.length := by simpa using h
      simpa [List.getD] using ih n v d this

/-- Writing a list slot leaves every other slot unchanged. -/
theorem list_getD_set_other {α : Type} :
    ∀ (l : List α) (i j : Nat) (v d : α), i ≠ j →
      (l.set i v).getD j d = l.getD j d := by
  intro l
  induction l with
  | nil => intro i j v d _; simp [List.set]
  | cons x xs ih =>
    intro i j v d hij
    cases i with
    | zero =>
      cases j with
      | zero => exact absurd rfl hij
      | succ m => rfl
    | succ n =>
      cases j with
      | zero => rfl
      | succ m =>
        have : n ≠ m := fun he => hij (by rw [he])
        simpa [List.getD] using ih n m v d this

/-- The cleanup-loop tail only ever keeps lines of its input. -/
theorem fixed_lines_aux_sublist :
    ∀ (rest : List String) (prev : String),
      List.Sublist (fixed_lines_aux prev rest) rest := by
  intro rest
  induction rest with
  | nil => intro prev; simp [fixed_lines_aux]
  | cons cur rest ih =>
    intro prev
    by_cases h : cur.trim = "" ∧ prev.trim = ""
    · rw [fixed_lines_aux, if_pos h]
      exact List.sublist_cons_of_sublist cur (ih cur)
    · rw [fixed_lines_aux, if_neg h]
      exact List.Sublist.cons₂ cur (ih cur)

/-- The cleanup-loop tail keeps every line with non-empty stripped content,
in order. -/
theorem fixed_lines_aux_filter :
    ∀ (rest : List String) (prev : String),
      List.Sublist (rest.filter (fun s => !(decide (s.trim = ""))))
        (fixed_lines_aux prev rest) := by
  intro rest
  induction rest with
  | nil => intro prev; simp [fixed_lines_aux]
  | cons cur rest ih =>
    intro prev
    by_cases hcur : cur.trim = ""
    · have hfilter :
          (cur :: rest).filter (fun s => !(decide (s.trim = "")))
            = rest.filter (fun s => !(decide (s.trim = ""))) := by
        simp [List.filter, hcur]
      rw [hfilter]
      by_cases h : cur.trim = "" ∧ prev.trim = ""
      · rw [fixed_lines_aux, if_pos h]; exact ih cur
      · rw [fixed_lines_aux, if_neg h]
        exact List.sublist_cons_of_sublist cur (ih cur)
    · have h : ¬(cur.trim = "" ∧ prev.trim = "") := fun hc => hcur hc.1
      have hfilter :
          (cur :: rest).filter (fun s => !(decide (s.trim = "")))
            = cur :: rest.filter (fun s => !(decide (s.trim = ""))) := by
        simp [List.filter, hcur]
      rw [hfilter, fixed_lines_aux, if_neg h]
      exact List.Sublist.cons₂ cur (ih cur)

/-- Walking the cleanup-loop tail from any predecessor never emits two
adjacent whitespace-only lines. -/
theorem fixed_lines_aux_chain :
    ∀ (rest : List String) (prev : String),
      List.Chain' (fun a b => ¬(a.trim = "" ∧ b.trim = ""))
        (prev :: fixed_lines_aux prev rest) := by
  intro rest
  induction rest with
  | nil => intro prev; simp [fixed_lines_aux]
  | cons cur rest ih =>
    intro prev
    by_cases h : cur.trim = "" ∧ prev.trim = ""
    · rw [fixed_lines_aux, if_pos h]
      have hcur := ih cur
      cases haux : fixed_lines_aux cur rest with
      | nil => simp
      | cons x xs =>
        rw [haux] at hcur
        have hx := (List.chain'_cons.mp hcur).1
        have htail := (List.chain'_cons.mp hcur).2
        refine List.chain'_cons.mpr ⟨?_, htail⟩
        intro hpx
        exact hx ⟨h.1, hpx.2⟩
    · rw [fixed_lines_aux, if_neg h]
      refine List.chain'_cons.mpr ⟨?_, ih cur⟩
      intro hpc
      exact h ⟨hpc.2, hpc.1⟩

/-- C10: `_prepare_context` mutates the caller's `chat_history` list in
place — exactly one user-role message (the context prompt formatted with the
node contents and the query) is appended through the reference, every other
stored list is untouched, and the mutation is visible to the caller; the
system-prompt message, when configured, is prepended only to the returned
list, never to the caller's list. -/
theorem prepare_context_frame (self : ResponseWithChatHistory)
    (store : List (List ChatMessage)) (chRef : Nat)
    (nodes : List NodeWithScore) (q : String)
    (h : chRef < store.length) :
    (prepare_context self store chRef nodes q).1.getD chRef []
        = store.getD chRef []
          ++ [⟨"user", formatContextPrompt self.context_prompt
                (buildNodeContext 0 nodes) q⟩]
    ∧ (∀ i, i ≠ chRef →
        (prepare_context self store chRef nodes q).1.getD i []
          = store.getD i [])
    ∧ (∀ sp, self.system_prompt = some sp →
        (prepare_context self store chRef nodes q).2
          = ChatMessage.mk "system" sp
              :: (prepare_context self store chRef nodes q).1.getD chRef [])
    ∧ (self.system_prompt = none →
        (prepare_context self store chRef nodes q).2
          = (prepare_context self store chRef nodes q).1.getD chRef []) := by
  have hset :
      (prepare_context self store chRef nodes q).1.getD chRef []
        = store.getD chRef []
          ++ [⟨"user", formatContextPrompt self.context_prompt
                (buildNodeContext 0 nodes) q⟩] := by
    simp only [prepare_context]
    exact list_getD_set_self store chRef _ [] h
  refine ⟨hset, ?_, ?_, ?_⟩
  · intro i hi
    simp only [prepare_context]
    exact list_getD_set_other store chRef i _ [] (fun he => hi he.symm)
  · intro sp hsp
    rw [hset]
    simp [prepare_context, hsp]
  · intro hnone
    rw [hset]
    simp [prepare_context, hnone]

/-- Witness for C10 at a one-slot store and a component with a system
prompt: the caller's slot receives exactly the user message, and the
returned list prepends the system message to the caller's mutated list. -/
theorem prepare_context_frame_witness :
    (0 : Nat) < ([[]] : List (List ChatMessage)).length
    ∧ (prepare_context sysComponent [[]] 0 [] "q").1.getD 0 []
        = [] ++ [⟨"user", formatContextPrompt sysComponent.context_prompt
              (buildNodeContext 0 []) "q"⟩]
    ∧ (prepare_context sysComponent [[]] 0 [] "q").2
        = ChatMessage.mk "system" "You are a Q&A system."
            :: (prepare_context sysComponent [[]] 0 [] "q").1.getD 0 [] := by
  have h : (0 : Nat) < ([[]] : List (List ChatMessage)).length := by simp
  have hmain := prepare_context_frame sysComponent [[]] 0 [] "q" h
  exact ⟨h, by simpa using hmain.1, hmain.2.2.1 "You are a Q&A system." rfl⟩

/-- C4: `add_link` fails with `UnknownUnitError` when either endpoint name
is unregistered, fails with `DuplicateDestinationError` when the
destination slot `(dst, dst_key)` already has a producer, and otherwise
records the link — in particular fan-in into one destination unit succeeds
whenever the new link targets a destination key with no existing
producer. -/
theorem add_link_spec (g : PipelineGraph) (src sk dst dk : String) :
    (src ∉ moduleNames g →
        add_link g src sk dst dk = .error (.unknownUnitError src))
    ∧ (src ∈ moduleNames g → dst ∉ moduleNames g →
        add_link g src sk dst dk = .error (.unknownUnitError dst))
    ∧ (src ∈ moduleNames g → dst ∈ moduleNames g →
        (∃ l ∈ g.links, l.dest = dst ∧ l.dest_key = dk) →
        add_link g src sk dst dk = .error (.duplicateDestinationError dst dk))
    ∧ (src ∈ moduleNames g → dst ∈ moduleNames g →
        (∀ l ∈ g.links, ¬(l.dest = dst ∧ l.dest_key = dk)) →
        add_link g src sk dst dk
          = .ok { g with links := g.links ++ [⟨src, sk, dst, dk⟩] }) := by
  refine ⟨?_, ?_, ?_, ?_⟩
  · intro hsrc
    rw [add_link, if_neg hsrc]
  · intro hsrc hdst
    rw [add_link, if_pos hsrc, if_neg hdst]
  · intro hsrc hdst hdup
    have hany : g.links.any (fun l => l.dest == dst && l.dest_key == dk) = true := by
      rw [List.any_eq_true]
      obtain ⟨l, hl, h1, h2⟩ := hdup
      exact ⟨l, hl, by simp [h1, h2]⟩
    rw [add_link, if_pos hsrc, if_pos hdst, if_pos hany]
  · intro hsrc hdst hfree
    have hany : ¬ g.links.any (fun l => l.dest == dst && l.dest_key == dk) = true := by
      rw [List.any_eq_true]
      rintro ⟨l, hl, hb⟩
      rw [Bool.and_eq_true, beq_iff_eq, beq_iff_eq] at hb
      exact hfree l hl hb
    rw [add_link, if_pos hsrc, if_pos hdst, if_neg hany]

/-- Witness for C4 on a three-unit graph that already links `A.output` into
`C.k1`: an unregistered source is rejected, a second producer for `(C, k1)`
is rejected, and fan-in through the fresh key `(C, k2)` succeeds. -/
theorem add_link_spec_witness :
    add_link linkDemoGraph "Z" "output" "C" "k9"
        = .error (.unknownUnitError "Z")
    ∧ add_link linkDemoGraph "B" "output" "C" "k1"
        = .error (.duplicateDestinationError "C" "k1")
    ∧ add_link linkDemoGraph "B" "output" "C" "k2"
        = .ok { linkDemoGraph with
                links := linkDemoGraph.links ++ [⟨"B", "output", "C", "k2"⟩] } :=
  ⟨(add_link_spec linkDemoGraph "Z" "output" "C" "k9").1 (by decide),
   (add_link_spec linkDemoGraph "B" "output" "C" "k1").2.2.1 (by decide) (by decide)
     ⟨⟨"A", "output", "C", "k1"⟩, by decide⟩,
   (add_link_spec linkDemoGraph "B" "output" "C" "k2").2.2.2 (by decide) (by decide)
     (by decide)⟩

/-- C8: the deployment descriptor declares exactly one service — an
externally-run search-engine (elasticsearch) image — whose health probe is
a curl request (GET: no method-override flag) against `/_cluster/health`
that fails the probe whenever the request fails (`--fail`, `|| exit 1`),
and whose network port mapping is fixed at 9200:9200; the descriptor is
pure configuration data. -/
theorem compose_descriptor_spec :
    composeServices.length = 1
    ∧ ∀ s ∈ composeServices,
        strContains s.image "elasticsearch" = true
        ∧ s.ports = ["9200:9200"]
        ∧ ∃ cmd ∈ s.healthcheck_test,
            strContains cmd "curl" = true
            ∧ strContains cmd "/_cluster/health" = true
            ∧ strContains cmd "--fail" = true
            ∧ strContains cmd "|| exit 1" = true
            ∧ strContains cmd "-X" = false
            ∧ strContains cmd "--request" = false := by
  decide

/-- C7: the executor is deterministic — with identical graphs, unit
behaviors and initial inputs, two runs return equal outcomes whenever the
graph validates. -/
theorem run_deterministic (g : PipelineGraph)
    (behaviors : String → List (String × String) → List (String × String))
    (inputs : List ((String × String) × String))
    (hvalid : ∃ ord, validate g (inputs.map Prod.fst) = .ok ord)
    (r1 r2 : Except PipelineError (List ((String × String) × String)))
    (h1 : run g behaviors inputs = r1) (h2 : run g behaviors inputs = r2) :
    r1 = r2 :=
  h1 ▸ h2

/-- Witness for C7: on a concrete validating one-unit graph the two
evaluated run results coincide. -/
theorem run_deterministic_witness :
    (Except.ok [(("A", "out"), "v")] :
        Except PipelineError (List ((String × String) × String)))
      = run soloGraph soloBehaviors [] :=
  run_deterministic soloGraph soloBehaviors [] ⟨["A"], rfl⟩
    (.ok [(("A", "out"), "v")]) (run soloGraph soloBehaviors []) rfl rfl

/-- Eviction only removes entries from the head: the result is a suffix. -/
theorem evictHead_suffix (size : ChatMessage → Nat) (B : Nat) :
    ∀ l : List ChatMessage, (evictHead size B l).IsSuffix l := by
  intro l
  induction l with
  | nil => simp [evictHead]
  | cons x xs ih =>
    cases xs with
    | nil => simp [evictHead]
    | cons y rest =>
      by_cases h : totalSize size (x :: y :: rest) > B
      · rw [evictHead, if_pos h]
        exact ih.trans (List.suffix_cons x (y :: rest))
      · rw [evictHead, if_neg h]

/-- Eviction never drops the most recent (last) entry. -/
theorem evictHead_getLast? (size : ChatMessage → Nat) (B : Nat) :
    ∀ l : List ChatMessage, (evictHead size B l).getLast? = l.getLast? := by
  intro l
  induction l with
  | nil => simp [evictHead]
  | cons x xs ih =>
    cases xs with
    | nil => simp [evictHead]
    | cons y rest =>
      by_cases h : totalSize size (x :: y :: rest) > B
      · rw [evictHead, if_pos h, ih]
        simp [List.getLast?]
      · rw [evictHead, if_neg h]

/-- After eviction the buffer is within budget, or a single entry remains. -/
theorem evictHead_budget (size : ChatMessage → Nat) (B : Nat) :
    ∀ l : List ChatMessage,
      totalSize size (evictHead size B l) ≤ B
        ∨ ∃ x, evictHead size B l = [x] := by
  intro l
  induction l with
  | nil => left; simp [evictHead, totalSize]
  | cons x xs ih =>
    cases xs with
    | nil => right; exact ⟨x, by simp [evictHead]⟩
    | cons y rest =>
      by_cases h : totalSize size (x :: y :: rest) > B
      · rw [evictHead, if_pos h]; exact ih
      · left; rw [evictHead, if_neg h]; omega

/-- C1: appending to a memory buffer with budget `B` (under any injected
sizing function, from any reachable buffer state) leaves the total size
within `B` unless the single most-recently appended entry remains alone;
the most recent entry is never evicted, and eviction removes entries only
from the head (the result is a suffix of the tail-appended buffer). -/
theorem memoryPut_budget_spec (size : ChatMessage → Nat) (B : Nat)
    (mem : List ChatMessage) (m : ChatMessage) :
    (totalSize size (memoryPut size B mem m) ≤ B ∨ memoryPut size B mem m = [m])
    ∧ (memoryPut size B mem m).getLast? = some m
    ∧ (memoryPut size B mem m).IsSuffix (mem ++ [m]) := by
  have hlast : (memoryPut size B mem m).getLast? = some m := by
    rw [memoryPut, evictHead_getLast?]
    simp
  refine ⟨?_, hlast, evictHead_suffix size B (mem ++ [m])⟩
  rcases evictHead_budget size B (mem ++ [m]) with h | ⟨x, hx⟩
  · left; exact h
  · right
    rw [memoryPut] at hlast ⊢
    rw [hx] at hlast ⊢
    simp at hlast
    rw [hlast]

/-- C2: one turn of the notebook's chat loop surfaces a failed run's
originating error and leaves the memory buffer unmodified; after a
successful run it appends exactly the user message and then the assistant
response. -/
theorem chatTurn_error_spec (size : ChatMessage → Nat) (B : Nat)
    (run : String → List ChatMessage → String → Except String ChatResponse)
    (mem : List ChatMessage) (msg : String) :
    (∀ e, run msg mem (chatHistoryStr mem) = .error e →
        chatTurn size B run mem msg = (.error e, mem))
    ∧ (∀ r, run msg mem (chatHistoryStr mem) = .ok r →
        chatTurn size B run mem msg
          = (.ok r, memoryPut size B (memoryPut size B mem ⟨"user", msg⟩) r.message)) := by
  constructor
  · intro e he
    simp [chatTurn, he]
  · intro r hr
    simp [chatTurn, hr]

/-- Witness for C2: a failing run propagates its error and returns the
memory unchanged; a succeeding run appends user then assistant. -/
theorem chatTurn_error_spec_witness :
    chatTurn unitSize 10 failingRun [] "hello" = (.error "rate limit", [])
    ∧ chatTurn unitSize 10 okRun [] "hello"
        = (.ok ⟨⟨"assistant", "hi there"⟩⟩,
           memoryPut unitSize 10 (memoryPut unitSize 10 [] ⟨"user", "hello"⟩)
             ⟨"assistant", "hi there"⟩) :=
  ⟨(chatTurn_error_spec unitSize 10 failingRun [] "hello").1 "rate limit" rfl,
   (chatTurn_error_spec unitSize 10 okRun [] "hello").2 ⟨⟨"assistant", "hi there"⟩⟩ rfl⟩

/-- C3: `_run_component` produces its response by calling the notebook's
module-global `llm`, not the `self.llm` instance supplied at the
component's construction: with a component constructed over a distinct
injected LLM, the returned response is the global LLM's answer and differs
from what the injected LLM would answer on the same prepared context. -/
theorem run_component_uses_global_llm :
    (run_component globalLLMDemo demoComponent [[]] 0 [] "q").2
        = ⟨"assistant", "answer-from-global-llm"⟩
    ∧ demoComponent.llm.chat (prepare_context demoComponent [[]] 0 [] "q").2
        = ⟨"assistant", "answer-from-injected-llm"⟩
    ∧ (run_component globalLLMDemo demoComponent [[]] 0 [] "q").2
        ≠ demoComponent.llm.chat (prepare_context demoComponent [[]] 0 [] "q").2 := by
  refine ⟨rfl, rfl, ?_⟩
  intro h
  have : "answer-from-global-llm" = "answer-from-injected-llm" :=
    congrArg ChatMessage.content h
  simp at this

/-- C9: on a non-empty list of lines, the notebook's blank-line-compression
loop returns a subsequence of the input that starts with the first line,
keeps every line whose stripped content is non-empty in original order, and
never contains two consecutive whitespace-only lines. -/
theorem fixed_lines_spec (l0 : String) (rest : List String) :
    (fixed_lines (l0 :: rest)).head? = some l0
    ∧ List.Sublist (fixed_lines (l0 :: rest)) (l0 :: rest)
    ∧ List.Sublist
        ((l0 :: rest).filter (fun s => !(decide (s.trim = ""))))
        (fixed_lines (l0 :: rest))
    ∧ List.Chain' (fun a b => ¬(a.trim = "" ∧ b.trim = ""))
        (fixed_lines (l0 :: rest)) := by
  refine ⟨rfl, ?_, ?_, ?_⟩
  · exact List.Sublist.cons₂ l0 (fixed_lines_aux_sublist rest l0)
  · by_cases h0 : l0.trim = ""
    · have : (l0 :: rest).filter (fun s => !(decide (s.trim = "")))
          = rest.filter (fun s => !(decide (s.trim = ""))) := by
        simp [List.filter, h0]
      rw [this, fixed_lines]
      exact List.sublist_cons_of_sublist l0 (fixed_lines_aux_filter rest l0)
    · have : (l0 :: rest).filter (fun s => !(decide (s.trim = "")))
          = l0 :: rest.filter (fun s => !(decide (s.trim = ""))) := by
        simp [List.filter, h0]
      rw [this, fixed_lines]
      exact List.Sublist.cons₂ l0 (fixed_lines_aux_filter rest l0)
  · exact fixed_lines_aux_chain rest l0

/-- Shape of a successful ordering pass: the output extends the emitted
prefix by a permutation of the residual units, and every emitted unit's
link-producers were emitted before it. -/
theorem topoGo_ok_shape (links : List Link) :
    ∀ (fuel : Nat) (ordered remaining ord : List String),
      topoGo links fuel ordered remaining = .ok ord →
      ∃ suffix, ord = ordered.reverse ++ suffix
        ∧ topoOk links ordered suffix ∧ suffix.Perm remaining := by
  intro fuel
  induction fuel with
  | zero =>
    intro ordered remaining ord h
    cases remaining with
    | nil =>
      refine ⟨[], ?_, trivial, List.Perm.refl _⟩
      have : ordered.reverse = ord := by simpa [topoGo] using h
      simp [this]
    | cons r rs => simp [topoGo] at h
  | succ fuel ih =>
    intro ordered remaining ord h
    cases remaining with
    | nil =>
      refine ⟨[], ?_, trivial, List.Perm.refl _⟩
      have : ordered.reverse = ord := by simpa [topoGo] using h
      simp [this]
    | cons r rs =>
      rw [topoGo] at h
      cases hfind : (r :: rs).find? (ready links ordered) with
      | none => rw [hfind] at h; simp at h
      | some u =>
        rw [hfind] at h
        obtain ⟨suffix, hordEq, hok, hperm⟩ :=
          ih (u :: ordered) ((r :: rs).erase u) ord h
        have hready := List.find?_some hfind
        have humem := List.mem_of_find?_eq_some hfind
        refine ⟨u :: suffix, ?_, ⟨?_, hok⟩, ?_⟩
        · rw [hordEq]; simp
        · intro l hl hdest
          rw [ready, List.all_eq_true] at hready
          have hb := hready l hl
          rw [hdest] at hb
          simp only [BEq.refl, Bool.not_true, Bool.false_or] at hb
          simpa using hb
        · exact (hperm.cons u).trans (List.perm_cons_erase humem).symm

/-- `topoOk` over a duplicate-free ordering gives strict precedence of every
link's source before its destination. -/
theorem topoOk_indexOf (links : List Link) :
    ∀ (rest seen : List String), topoOk links seen rest → rest.Nodup →
      ∀ l ∈ links, l.dest ∈ rest →
        l.src ∈ seen
          ∨ (l.src ∈ rest ∧ rest.indexOf l.src < rest.indexOf l.dest) := by
  intro rest
  induction rest with
  | nil => intro seen _ _ l _ hdest; simp at hdest
  | cons u rest ih =>
    intro seen hok hnodup l hl hdest
    obtain ⟨h1, h2⟩ := hok
    have hu_notin : u ∉ rest := (List.nodup_cons.mp hnodup).1
    have hnodup' : rest.Nodup := (List.nodup_cons.mp hnodup).2
    rcases List.mem_cons.mp hdest with heq | hdest'
    · exact Or.inl (h1 l hl heq)
    · have hdu : u ≠ l.dest := fun he => hu_notin (he ▸ hdest')
      rcases ih (u :: seen) h2 hnodup' l hl hdest' with hsrc | ⟨hsrcmem, hidx⟩
      · rcases List.mem_cons.mp hsrc with heqs | hseen
        · right
          refine ⟨heqs ▸ List.mem_cons_self u rest, ?_⟩
          rw [heqs, List.indexOf_cons_self, List.indexOf_cons_ne rest hdu]
          exact Nat.succ_pos _
        · exact Or.inl hseen
      · right
        have hsu : u ≠ l.src := fun he => hu_notin (he ▸ hsrcmem)
        refine ⟨List.mem_cons_of_mem u hsrcmem, ?_⟩
        rw [List.indexOf_cons_ne rest hsu, List.indexOf_cons_ne rest hdu]
        exact Nat.succ_lt_succ hidx

/-- With an empty link table the ordering pass emits the residual units in
registration order (the tie-breaking rule in its pure form). -/
theorem topoGo_no_links :
    ∀ (fuel : Nat) (ordered remaining : List String), remaining.length ≤ fuel →
      topoGo [] fuel ordered remaining = .ok (ordered.reverse ++ remaining) := by
  intro fuel
  induction fuel with
  | zero =>
    intro ordered remaining h
    have hnil : remaining = [] := List.length_eq_zero.mp (Nat.le_zero.mp h)
    subst hnil
    simp [topoGo]
  | succ fuel ih =>
    intro ordered remaining h
    cases remaining with
    | nil => simp [topoGo]
    | cons r rs =>
      have hfind : (r :: rs).find? (ready [] ordered) = some r := by
        simp [List.find?, ready]
      rw [topoGo, hfind]
      show topoGo [] fuel (r :: ordered) ((r :: rs).erase r)
        = .ok (ordered.reverse ++ r :: rs)
      rw [List.erase_cons_head]
      have hlen : rs.length ≤ fuel := by simpa using h
      rw [ih (r :: ordered) rs hlen]
      simp

/-- On a DAG (witnessed by any listing `T` that respects the links) the
ordering pass always succeeds. -/
theorem topoGo_ok_of_dag (links : List Link) (modules T : List String)
    (hT : T.Perm modules) (hresp : linksRespect links T)
    (hsrc : ∀ l ∈ links, l.src ∈ modules) :
    ∀ (fuel : Nat) (ordered remaining : List String),
      remaining.length ≤ fuel →
      (ordered.reverse ++ remaining).Perm modules →
      ∃ ord, topoGo links fuel ordered remaining = .ok ord := by
  intro fuel
  induction fuel with
  | zero =>
    intro ordered remaining hlen _
    have hnil : remaining = [] := List.length_eq_zero.mp (Nat.le_zero.mp hlen)
    subst hnil
    exact ⟨ordered.reverse, by simp [topoGo]⟩
  | succ fuel ih =>
    intro ordered remaining hlen hperm
    cases remaining with
    | nil => exact ⟨ordered.reverse, by simp [topoGo]⟩
    | cons r rs =>
      obtain ⟨u, humem, humin⟩ :=
        list_exists_min_image (fun v => T.indexOf v) (r :: rs) (by simp)
      have hready : ready links ordered u = true := by
        rw [ready, List.all_eq_true]
        intro l hl
        by_cases hdest : l.dest = u
        · have hsplit : l.src ∈ ordered.reverse ++ (r :: rs) :=
            hperm.mem_iff.mpr (hsrc l hl)
          rcases List.mem_append.mp hsplit with ho | hr
          · have : l.src ∈ ordered := List.mem_reverse.mp ho
            simp [this]
          · exfalso
            have h1 : T.indexOf l.src < T.indexOf l.dest := hresp l hl
            rw [hdest] at h1
            exact absurd (humin l.src hr) (by omega)
        · have : (l.dest == u) = false := by
            simpa using hdest
          simp [this]
      obtain ⟨w, hw⟩ :=
        list_find?_isSome_of_mem (ready links ordered) (r :: rs) u humem hready
      have hwmem : w ∈ r :: rs := List.mem_of_find?_eq_some hw
      have hlen' : ((r :: rs).erase w).length ≤ fuel := by
        rw [List.length_erase_of_mem hwmem]
        simp only [List.length_cons] at hlen ⊢
        omega
      have hperm' : ((w :: ordered).reverse ++ (r :: rs).erase w).Perm modules := by
        have heq : (w :: ordered).reverse ++ (r :: rs).erase w
            = ordered.reverse ++ (w :: (r :: rs).erase w) := by simp
        rw [heq]
        exact ((List.perm_cons_erase hwmem).symm.append_left ordered.reverse).trans hperm
      obtain ⟨ord, hord⟩ := ih (w :: ordered) ((r :: rs).erase w) hlen' hperm'
      refine ⟨ord, ?_⟩
      rw [topoGo, hw]
      exact hord

/-- When every required key of every unit is covered, the coverage scan
reports nothing missing. -/
theorem findMissing_none (links : List Link) (inputs : List (String × String)) :
    ∀ units : List UnitDecl,
      (∀ u ∈ units, ∀ k ∈ u.required, coveredB links inputs u.name k = true) →
      findMissing links inputs units = none := by
  intro units
  induction units with
  | nil => intro _; rfl
  | cons u rest ih =>
    intro hcov
    have hfind : u.required.find? (fun k => !(coveredB links inputs u.name k)) = none := by
      rw [List.find?_eq_none]
      intro k hk
      simp [hcov u (List.mem_cons_self u rest) k hk]
    rw [findMissing, hfind]
    exact ih (fun v hv => hcov v (List.mem_cons_of_mem u hv))

/-- C5: on every valid graph — well-formed registry and link table forming a
DAG, with all required inputs covered — `validate` succeeds and returns a
topological ordering of the units: a permutation of the registry in which
the source unit of every link strictly precedes its destination unit; with
no link constraints at all the ordering is exactly the registration order
(the tie-breaking rule). -/
theorem validate_topological (g : PipelineGraph) (inputs : List (String × String))
    (hwf : wellFormed g) (hdag : isDAG g)
    (hcov : ∀ u ∈ g.units, ∀ k ∈ u.required, coveredB g.links inputs u.name k = true) :
    ∃ ord, validate g inputs = .ok ord
      ∧ ord.Perm (moduleNames g)
      ∧ linksRespect g.links ord
      ∧ (g.links = [] → ord = moduleNames g) := by
  obtain ⟨T, hT, hresp⟩ := hdag
  have hsrc : ∀ l ∈ g.links, l.src ∈ moduleNames g := fun l hl => (hwf.2 l hl).1
  obtain ⟨ord, hgo⟩ :=
    topoGo_ok_of_dag g.links (moduleNames g) T hT hresp hsrc
      (moduleNames g).length [] (moduleNames g) (le_refl _) (by simp)
  obtain ⟨suffix, hshape, hok, hperm⟩ :=
    topoGo_ok_shape g.links (moduleNames g).length [] (moduleNames g) ord hgo
  have hordsuffix : ord = suffix := by simpa using hshape
  subst hordsuffix
  have hperm' : ord.Perm (moduleNames g) := hperm
  have hnodup : ord.Nodup := hperm'.symm.nodup_iff.mp hwf.1
  have hvalidate : validate g inputs = .ok ord := by
    rw [validate, topoSort, hgo,
      findMissing_none g.links inputs g.units hcov]
  refine ⟨ord, hvalidate, hperm', ?_, ?_⟩
  · intro l hl
    have hdest : l.dest ∈ ord := hperm'.mem_iff.mpr (hwf.2 l hl).2
    rcases topoOk_indexOf g.links ord [] hok hnodup l hl hdest with
      habs | ⟨_, hidx⟩
    · simp at habs
    · exact hidx
  · intro hlinks
    rw [hlinks] at hgo
    rw [topoGo_no_links (moduleNames g).length [] (moduleNames g) (le_refl _)] at hgo
    have h2 : moduleNames g = ord := by simpa using hgo
    exact h2.symm

/-- Witness for C5 on a concrete two-unit pipeline (`input` feeding `llm`):
validation succeeds with a topological ordering. -/
theorem validate_topological_witness :
    ∃ ord, validate lineGraph [] = .ok ord
      ∧ ord.Perm (moduleNames lineGraph)
      ∧ linksRespect lineGraph.links ord
      ∧ (lineGraph.links = [] → ord = moduleNames lineGraph) :=
  validate_topological lineGraph [] (by unfold wellFormed; decide)
    ⟨["input", "llm"], by decide, by unfold linksRespect; decide⟩ (by decide)

/-- A stuck-set argument: if a set `S` of units is closed under "has an
`S`-predecessor through a link", no unit of `S` has been emitted, and every
unit of `S` is residual, then the ordering pass ends in a `CycleError`
whose residue contains all of `S`. -/
theorem topoGo_cycle_stuck (links : List Link) (S : String → Prop)
    (hS : ∀ v, S v → ∃ p, S p ∧ hasEdge links p v) :
    ∀ (fuel : Nat) (ordered remaining : List String),
      (∀ p, S p → p ∉ ordered) → (∀ v, S v → v ∈ remaining) → (∃ v, S v) →
      ∃ cs, topoGo links fuel ordered remaining = .error (.cycleError cs)
        ∧ ∀ v, S v → v ∈ cs := by
  intro fuel
  induction fuel with
  | zero =>
    intro ordered remaining _ hrem hex
    obtain ⟨v, hv⟩ := hex
    cases remaining with
    | nil => exact absurd (hrem v hv) (List.not_mem_nil v)
    | cons r rs => exact ⟨r :: rs, by simp [topoGo], hrem⟩
  | succ fuel ih =>
    intro ordered remaining hord hrem hex
    obtain ⟨v, hv⟩ := hex
    cases remaining with
    | nil => exact absurd (hrem v hv) (List.not_mem_nil v)
    | cons r rs =>
      cases hfind : (r :: rs).find? (ready links ordered) with
      | none => exact ⟨r :: rs, by rw [topoGo, hfind], hrem⟩
      | some w =>
        have hready := List.find?_some hfind
        have hnSw : ¬ S w := by
          intro hSw
          obtain ⟨p, hSp, l, hl, hsrc, hdest⟩ := hS w hSw
          rw [ready, List.all_eq_true] at hready
          have hb := hready l hl
          rw [hdest] at hb
          simp only [BEq.refl, Bool.not_true, Bool.false_or] at hb
          have hmem : l.src ∈ ordered := by simpa using hb
          rw [hsrc] at hmem
          exact hord p hSp hmem
        obtain ⟨cs, hcs, hmemcs⟩ := ih (w :: ordered) ((r :: rs).erase w)
          (fun p hp hmem => by
            rcases List.mem_cons.mp hmem with heq | hmem'
            · exact hnSw (heq ▸ hp)
            · exact hord p hp hmem')
          (fun v' hv' => by
            have hne : v' ≠ w := fun he => hnSw (he ▸ hv')
            exact (List.mem_erase_of_ne hne).mpr (hrem v' hv'))
          ⟨v, hv⟩
        refine ⟨cs, ?_, hmemcs⟩
        rw [topoGo, hfind]
        exact hcs

/-- C6: whatever the initial inputs, a well-formed graph whose link table
contains a cycle of any length ≥ 1 (a self-loop included) fails validation
with a `CycleError` whose named residue is non-empty and contains every
unit lying on a cycle. -/
theorem validate_cycle_spec (g : PipelineGraph) (inputs : List (String × String))
    (hwf : wellFormed g) (hcyc : hasCycle g) :
    ∃ cs, validate g inputs = .error (.cycleError cs) ∧ cs ≠ []
      ∧ ∀ v, Relation.TransGen (hasEdge g.links) v v → v ∈ cs := by
  have hS : ∀ v, Relation.TransGen (hasEdge g.links) v v →
      ∃ p, Relation.TransGen (hasEdge g.links) p p ∧ hasEdge g.links p v := by
    intro v hv
    obtain ⟨p, hvp, hpv⟩ := Relation.TransGen.tail'_iff.mp hv
    exact ⟨p, Relation.TransGen.head' hpv hvp, hpv⟩
  have hrem : ∀ v, Relation.TransGen (hasEdge g.links) v v →
      v ∈ moduleNames g := by
    intro v hv
    obtain ⟨p, _, l, hl, _, hdest⟩ := Relation.TransGen.tail'_iff.mp hv
    exact hdest ▸ (hwf.2 l hl).2
  obtain ⟨u, hu⟩ := hcyc
  obtain ⟨cs, hcs, hmem⟩ :=
    topoGo_cycle_stuck g.links (fun v => Relation.TransGen (hasEdge g.links) v v)
      hS (moduleNames g).length [] (moduleNames g)
      (fun p _ hmem => List.not_mem_nil p hmem) hrem ⟨u, hu⟩
  refine ⟨cs, ?_, ?_, hmem⟩
  · rw [validate, topoSort, hcs]
  · intro hnil
    exact List.not_mem_nil u (hnil ▸ hmem u hu)

/-- Witness for C6 on a concrete two-unit cyclic graph (`A → B → A`):
validation fails with a non-empty `CycleError`. -/
theorem validate_cycle_spec_witness :
    ∃ cs, validate cycleGraph [] = .error (.cycleError cs) ∧ cs ≠ []
      ∧ ∀ v, Relation.TransGen (hasEdge cycleGraph.links) v v → v ∈ cs :=
  validate_cycle_spec cycleGraph [] (by unfold wellFormed; decide)
    ⟨"A", Relation.TransGen.head
      ⟨⟨"A", "o", "B", "i"⟩, by decide, rfl, rfl⟩
      (Relation.TransGen.single ⟨⟨"B", "o", "A", "i"⟩, by decide, rfl, rfl⟩)⟩

end QPM
